import Mathlib

/-!
Verification of the affiliation normalization engine
(`src/affiliation_processor/affiliation_fixer.py`).

Python strings are modelled shallowly as lists of Unicode code points
(`List Nat`); `lit` converts a Lean string literal to this representation.
Every definition below is translated from the Python source; the Python
name is kept (in `camelCase` or verbatim) wherever Lean allows.

The inputs handled by the engine are plain text; the ASCII-range
behaviour of Python's `str.lower`, `str.title`, `str.capitalize`, `\s`,
`\w` and `[a-z]`-style character classes is modelled exactly.
-/

abbrev Str := List Nat

def lit (s : String) : Str := s.data.map Char.toNat

/-- Python `\s` (ASCII range): space, tab, newline, carriage return,
vertical tab, form feed. -/
def isWs (c : Nat) : Bool := c = 32 || c = 9 || c = 10 || c = 13 || c = 11 || c = 12

def isUpperA (c : Nat) : Bool := 65 ≤ c && c ≤ 90

def isLowerA (c : Nat) : Bool := 97 ≤ c && c ≤ 122

/-- Letter in the sense of the case-insensitive class `[a-z]`. -/
def isAlphaA (c : Nat) : Bool := isUpperA c || isLowerA c

def isDigitA (c : Nat) : Bool := 48 ≤ c && c ≤ 57

/-- Python `\w` (ASCII range): letters, digits, underscore. -/
def isWordA (c : Nat) : Bool := isAlphaA c || isDigitA c || c = 95

def lowerC (c : Nat) : Nat := if isUpperA c then c + 32 else c

def upperC (c : Nat) : Nat := if isLowerA c then c - 32 else c

/-- Python `str.lower` (ASCII). -/
def pyLower (s : Str) : Str := s.map lowerC

/-- Python `str.title`: a letter is uppercased when the previous character
is not a letter, lowercased otherwise; non-letters pass through. -/
def pyTitleAux : Bool → Str → Str
  | _, [] => []
  | prevCased, c :: t =>
    (if isAlphaA c then (if prevCased then lowerC c else upperC c) else c)
      :: pyTitleAux (isAlphaA c) t

def pyTitle (s : Str) : Str := pyTitleAux false s

/-- Python `str.capitalize`: first character uppercased, rest lowercased. -/
def pyCapitalize : Str → Str
  | [] => []
  | c :: t => upperC c :: pyLower t

/-- Python `str.strip()` (whitespace from both ends). -/
def strip (s : Str) : Str :=
  ((s.dropWhile isWs).reverse.dropWhile isWs).reverse

/-- `re.sub(r"\s+", " ", ·)`: each whitespace run becomes one space. -/
def collapseWsAux : Bool → Str → Str
  | _, [] => []
  | prevWs, c :: t =>
    if isWs c then
      (if prevWs then collapseWsAux true t else 32 :: collapseWsAux true t)
    else c :: collapseWsAux false t

/-- `clean` from the source: `re.sub(r"\s+", " ", s.strip())`. -/
def clean (s : Str) : Str := collapseWsAux false (strip s)

/-- Python `str.split()` with no argument: split on whitespace runs,
dropping empty pieces. -/
def pySplitAux : Str → Str → List Str
  | acc, [] => if acc.isEmpty then [] else [acc.reverse]
  | acc, c :: t =>
    if isWs c then
      (if acc.isEmpty then pySplitAux [] t else acc.reverse :: pySplitAux [] t)
    else pySplitAux (c :: acc) t

def pySplit (s : Str) : List Str := pySplitAux [] s

/-- `re.split(r"[,\n]", ·)`: split on commas and newlines, keeping empty
pieces (they are filtered afterwards, as in the source). -/
def splitCommaNL : Str → List Str
  | [] => [[]]
  | c :: t =>
    if c = 44 || c = 10 then [] :: splitCommaNL t
    else
      match splitCommaNL t with
      | [] => [[c]]
      | p :: ps => (c :: p) :: ps

/-- Split on commas only; used to state the amended clause-splitting claim. -/
def splitCommaOnly : Str → List Str
  | [] => [[]]
  | c :: t =>
    if c = 44 then [] :: splitCommaOnly t
    else
      match splitCommaOnly t with
      | [] => [[c]]
      | p :: ps => (c :: p) :: ps

/-- Split on `|`, used by `smart_title_final`. -/
def splitBar : Str → List Str
  | [] => [[]]
  | c :: t =>
    if c = 124 then [] :: splitBar t
    else
      match splitBar t with
      | [] => [[c]]
      | p :: ps => (c :: p) :: ps

/-- Does `s` start with `pre` (Python `str.startswith`). -/
def startsW : Str → Str → Bool
  | _, [] => true
  | [], _ :: _ => false
  | c :: t, p :: q => c = p && startsW t q

/-- Python `needle in hay` substring test. -/
def strContains : Str → Str → Bool
  | [], needle => needle.isEmpty
  | s@(_ :: t), needle => startsW s needle || strContains t needle

/-- Python `str.replace(old, new)`: all non-overlapping occurrences, left
to right.  Fuel equals the length of the string: each step consumes at
least one character when `old` is non-empty, so the fuel never runs out. -/
def pyReplaceFuel : Nat → Str → Str → Str → Str
  | 0, s, _, _ => s
  | _ + 1, [], _, _ => []
  | f + 1, s@(c :: t), old, new =>
    if !old.isEmpty && startsW s old then
      new ++ pyReplaceFuel f (s.drop old.length) old new
    else c :: pyReplaceFuel f t old new

def pyReplace (s old new : Str) : Str := pyReplaceFuel s.length s old new

/-- Join a list of strings with a separator (Python `sep.join`). -/
def joinSep (sep : Str) : List Str → Str
  | [] => []
  | [x] => x
  | x :: y :: t => x ++ sep ++ joinSep sep (y :: t)

def joinSp (l : List Str) : Str := joinSep [32] l

/-- First element of `l` on which `f` succeeds (models a Python `for` loop
whose body `return`s / `break`s on a hit and otherwise continues). -/
def firstSome : List α → (α → Option β) → Option β
  | [], _ => none
  | x :: t, f =>
    match f x with
    | some r => some r
    | none => firstSome t f

/-- Association-list lookup, modelling Python `dict[key]` access with the
insertion order of the literal preserved. -/
def dictGet : List (Str × Str) → Str → Option Str
  | [], _ => none
  | (k, v) :: t, key => if key = k then some v else dictGet t key

def dictHas (d : List (Str × Str)) (k : Str) : Bool := (dictGet d k).isSome

/-- Case-insensitive literal match: consume `w` (given lowercase) from the
front of `s`, returning the rest of `s`. -/
def dropCI : Str → Str → Option Str
  | s, [] => some s
  | [], _ :: _ => none
  | c :: t, d :: e => if lowerC c = d then dropCI t e else none

/-- Match `\s+` greedily, returning the rest.  In every pattern of the
source the token following `\s+` begins with a non-whitespace character,
and the texts reaching the matchers have already been `clean`ed (single
spaces), so the greedy match without backtracking is exact. -/
def dropWs1 : Str → Option Str
  | [] => none
  | c :: t => if isWs c then some (t.dropWhile isWs) else none

/-- Scan positions left to right, returning the first position where `f`
matches (the leftmost-match rule of `re.search`). -/
def searchPos (f : Str → Option α) : Str → Option α
  | [] => f []
  | s@(_ :: t) =>
    match f s with
    | some r => some r
    | none => searchPos f t

/-! ### Lookup tables (insertion order of the Python dict literals) -/

def DONT_CAPITALIZE : List Str :=
  [lit "of", lit "and", lit "the", lit "a", lit "an", lit "in", lit "on",
   lit "at", lit "to", lit "for", lit "with", lit "by", lit "from"]

def COUNTRIES : List (Str × Str) := [(lit "egypt", lit "Egypt")]

def CITY_TO_COUNTRY : List (Str × Str) :=
  [(lit "damietta", lit "Egypt"),
   (lit "damitta", lit "Egypt"),
   (lit "domitta", lit "Egypt"),
   (lit "dameitta", lit "Egypt"),
   (lit "new damietta", lit "Egypt"),
   (lit "new dameitta", lit "Egypt"),
   (lit "cairo", lit "Egypt"),
   (lit "tanta", lit "Egypt"),
   (lit "alexandria", lit "Egypt"),
   (lit "giza", lit "Egypt"),
   (lit "kafr el sheikh", lit "Egypt"),
   (lit "mansoura", lit "Egypt")]

def CITY_KEYS : List Str := CITY_TO_COUNTRY.map (fun kv => kv.1)

def CITY_CORRECTIONS : List (Str × Str) :=
  [(lit "damitta", lit "Damietta"),
   (lit "domitta", lit "Damietta"),
   (lit "dameitta", lit "Damietta"),
   (lit "new damietta", lit "Damietta"),
   (lit "new dameitta", lit "Damietta")]

def DEPT_TO_FACULTY : List (Str × Str) :=
  [(lit "psychology", lit "Faculty of Medicine"),
   (lit "comp sci", lit "Faculty of Engineering"),
   (lit "computer science", lit "Faculty of Engineering"),
   (lit "medicine", lit "Faculty of Medicine"),
   (lit "engineering", lit "Faculty of Engineering"),
   (lit "radiology", lit "Faculty of Medicine"),
   (lit "pediatric", lit "Faculty of Medicine"),
   (lit "pediatrics", lit "Faculty of Medicine"),
   (lit "neurosurgery", lit "Faculty of Medicine")]

def UNIV_ALIASES : List (Str × Str) :=
  [(lit "alazhar", lit "Al-Azhar University"),
   (lit "al azhar", lit "Al-Azhar University"),
   (lit "al azher", lit "Al-Azhar University"),
   (lit "azhar", lit "Al-Azhar University"),
   (lit "azher", lit "Al-Azhar University"),
   (lit "cairo univ", lit "Cairo University"),
   (lit "cairo university", lit "Cairo University"),
   (lit "mansoura university", lit "Mansoura University"),
   (lit "mansoura univ", lit "Mansoura University")]

def FACULTY_WORDS : List Str := [lit "faculty", lit "college", lit "school"]

def DEPT_WORDS : List Str := [lit "department", lit "dept"]

/-- `sorted(CITY_TO_COUNTRY.keys(), key=lambda x: -len(x.split()))`:
stable insertion sort by descending word count.  `x` is placed before the
first element with at most as many words, so earlier keys keep their
relative order, exactly like Python's stable `sorted`. -/
def insertByWC (x : Str) : List Str → List Str
  | [] => [x]
  | y :: t =>
    if (pySplit y).length ≤ (pySplit x).length then x :: y :: t
    else y :: insertByWC x t

def sortByWCDesc : List Str → List Str
  | [] => []
  | x :: t => insertByWC x (sortByWCDesc t)

/-! ### `extract_department` — the regex patterns, in source order -/

def TITLE_ROLE_WORDS : List Str :=
  [lit "lecturer", lit "professor", lit "assistant professor",
   lit "associate professor", lit "resident"]

/-- `re.match(r"(?i)^\s*(lecturer|professor|assistant professor|associate
professor|resident)\s+of", text)`: alternatives tried in order, each with
the full `\s+of` continuation. -/
def titleRoleAt (s : Str) : Bool :=
  TITLE_ROLE_WORDS.any fun w =>
    match dropCI s w with
    | none => false
    | some r1 =>
      match dropWs1 r1 with
      | none => false
      | some r2 => (dropCI r2 (lit "of")).isSome

def matchesTitleStart (s : Str) : Bool := titleRoleAt (s.dropWhile isWs)

/-- One position of `re.search(r"(?i)(?:lecturer|...|resident)\s+of\s+
([a-z]+)", text)`; the greedy `[a-z]+` is the full letter run since the
pattern ends there. -/
def titleSpecAt (s : Str) : Option Str :=
  firstSome TITLE_ROLE_WORDS fun w =>
    match dropCI s w with
    | none => none
    | some r1 =>
      match dropWs1 r1 with
      | none => none
      | some r2 =>
        match dropCI r2 (lit "of") with
        | none => none
        | some r3 =>
          match dropWs1 r3 with
          | none => none
          | some r4 =>
            let run := r4.takeWhile isAlphaA
            if run.isEmpty then none else some run

def searchTitleSpec (s : Str) : Option Str := searchPos titleSpecAt s

/-- `re.sub(pattern, repl, s, flags=re.IGNORECASE)` for a word-bounded
alternation of plain words (used for `\bdeparmtent\b` and `\b(Of|The)\b`).
`prevIsWord` carries the word/non-word status of the previous character
for the leading `\b`; after a replacement, scanning resumes after the
matched word, whose last character is a word character. -/
def subWordCIAll : Nat → Bool → List (Str × Str) → Str → Str
  | 0, _, _, s => s
  | _ + 1, _, _, [] => []
  | f + 1, prevIsWord, alts, s@(c :: t) =>
    match firstSome alts (fun kv =>
      if prevIsWord then none
      else
        match dropCI s kv.1 with
        | none => none
        | some rest =>
          match rest with
          | [] => some (kv.2, rest)
          | d :: _ => if isWordA d then none else some (kv.2, rest)) with
    | some (repl, rest) => repl ++ subWordCIAll f true alts rest
    | none => c :: subWordCIAll f (isWordA c) alts t

def subDeparmtent (s : Str) : Str :=
  subWordCIAll s.length false [(lit "deparmtent", lit "department")] s

def subOfThe (s : Str) : Str :=
  subWordCIAll s.length false [(lit "of", []), (lit "the", [])] s

/-- One position of `(?i)(?:department|dept)\s+of\s+([a-z]+)
(?:\s+[a-z]+\s+faculty)`.  Both greedy letter runs are forced to their
full length because each is followed by `\s+`. -/
def deptOfCityFacultyAt (s : Str) : Option Str :=
  firstSome DEPT_WORDS fun w =>
    match dropCI s w with
    | none => none
    | some r1 =>
      match dropWs1 r1 with
      | none => none
      | some r2 =>
        match dropCI r2 (lit "of") with
        | none => none
        | some r3 =>
          match dropWs1 r3 with
          | none => none
          | some r4 =>
            let g := r4.takeWhile isAlphaA
            if g.isEmpty then none
            else
              match dropWs1 (r4.drop g.length) with
              | none => none
              | some r5 =>
                let h := r5.takeWhile isAlphaA
                if h.isEmpty then none
                else
                  match dropWs1 (r5.drop h.length) with
                  | none => none
                  | some r6 =>
                    if (dropCI r6 (lit "faculty")).isSome then some g else none

def searchDeptOfCityFaculty (s : Str) : Option Str := searchPos deptOfCityFacultyAt s

/-- Character class `[a-z &]` under `re.IGNORECASE`. -/
def isDeptClass (c : Nat) : Bool := isAlphaA c || c = 32 || c = 38

/-- One position of `(?i)(?:department|dept)\s+of\s+([a-z &]+)`; the
class run is maximal since the pattern ends with it. -/
def deptOfAt (s : Str) : Option Str :=
  firstSome DEPT_WORDS fun w =>
    match dropCI s w with
    | none => none
    | some r1 =>
      match dropWs1 r1 with
      | none => none
      | some r2 =>
        match dropCI r2 (lit "of") with
        | none => none
        | some r3 =>
          match dropWs1 r3 with
          | none => none
          | some r4 =>
            let g := r4.takeWhile isDeptClass
            if g.isEmpty then none else some g

def searchDeptOf (s : Str) : Option Str := searchPos deptOfAt s

/-- Greedy backtracking of the group in `(?i)([a-z &]+)\s+(?:department|
dept)`: group lengths are tried from the maximal class run downwards. -/
def xDeptTryLen (s : Str) : Nat → Option Str
  | 0 => none
  | l + 1 =>
    match
      (match dropWs1 (s.drop (l + 1)) with
       | none => none
       | some r2 =>
         if (dropCI r2 (lit "department")).isSome || (dropCI r2 (lit "dept")).isSome
         then some (s.take (l + 1)) else none) with
    | some cap => some cap
    | none => xDeptTryLen s l

def xDeptAt (s : Str) : Option Str :=
  xDeptTryLen s (s.takeWhile isDeptClass).length

def searchXDept (s : Str) : Option Str := searchPos xDeptAt s

def FACULTY_MISSPELLINGS_G : List Str := [lit "facality", lit "faculty", lit "faclty"]

/-- Lazy group of `(?i)^([a-z ]+?)\s+(?:facality|faculty|faclty)`:
prefix lengths tried ascending from 1 up to the maximal `[a-z ]` run. -/
def preFacultyUp (text : Str) : Nat → Nat → Option Str
  | _, 0 => none
  | l, rem + 1 =>
    match
      (match dropWs1 (text.drop l) with
       | none => none
       | some r2 =>
         if FACULTY_MISSPELLINGS_G.any (fun w => (dropCI r2 w).isSome)
         then some (text.take l) else none) with
    | some cap => some cap
    | none => preFacultyUp text (l + 1) rem

def searchPreFaculty (text : Str) : Option Str :=
  preFacultyUp text 1 (text.takeWhile (fun c => isAlphaA c || c = 32)).length

/-- The capture of `(?i)^(?:[\w\s]+\s+)?([a-z]+(?:ology)?)\s+center` at a
given start offset `s`: the greedy `[a-z]+` takes the whole letter run
(the optional `ology` suffix is subsumed by it: any success of the
shorter-run-plus-`ology` branch implies the earlier-tried full-run branch
already succeeded), then `\s+` and the literal `center`. -/
def centerTryAt (text : Str) (s : Nat) : Option Str :=
  let rest := text.drop s
  let run := rest.takeWhile isAlphaA
  if run.isEmpty then none
  else
    match dropWs1 (rest.drop run.length) with
    | none => none
    | some r2 => if (dropCI r2 (lit "center")).isSome then some run else none

/-- Greedy optional prefix `(?:[\w\s]+\s+)?`: capture start offsets are
tried from the end of the maximal `[\w\s]` run downwards (each offset must
be preceded by a whitespace character and leave at least one prefix
character), and finally offset 0 with the prefix absent. -/
def centerScanDown (text : Str) : Nat → Option Str
  | 0 => centerTryAt text 0
  | 1 => centerTryAt text 0
  | k + 2 =>
    match
      (if (match text.drop (k + 1) with | c :: _ => isWs c | [] => false)
       then centerTryAt text (k + 2) else none) with
    | some r => some r
    | none => centerScanDown text (k + 1)

def searchCenterCap (text : Str) : Option Str :=
  centerScanDown text (text.takeWhile (fun c => isWordA c || isWs c)).length

/-! ### `extract_department` -/

def deptPatI (text : Str) : Str :=
  match searchCenterCap text with
  | some cap =>
    let dc := pyTitle (strip cap)
    if !dc.isEmpty then dc else []
  | none => []

def TITLE_ROLE_WORDS_G : List Str :=
  [lit "lecturer", lit "professor", lit "assistant professor", lit "associate professor"]

def deptPatG (text : Str) : Str :=
  match searchPreFaculty text with
  | some cap =>
    let dc := pyTitle (strip cap)
    if TITLE_ROLE_WORDS_G.contains (pyLower dc) then []
    else
      let dc := pyReplace dc (lit "Depridement") (lit "Surgery")
      let dc := pyReplace dc (lit "Surgary") (lit "Surgery")
      let dc := strip (subOfThe dc)
      if !dc.isEmpty && (pySplit dc).length ≤ 3 then dc else deptPatI text
  | none => deptPatI text

def deptPatF (text : Str) : Str :=
  match searchXDept text with
  | some cap =>
    let captured := strip (pyReplace (pyTitle cap) (lit "Depridement") [])
    if !captured.isEmpty then captured else deptPatG text
  | none => deptPatG text

def extract_department (text0 : Str) : Str :=
  if matchesTitleStart text0 then
    match searchTitleSpec text0 with
    | some cap => pyTitle cap
    | none => []
  else
    let text := subDeparmtent text0
    match searchDeptOfCityFaculty text with
    | some cap => pyTitle cap
    | none =>
      match searchDeptOf text with
      | some cap => pyTitle cap
      | none => deptPatF text

/-! ### `extract_faculty` -/

def FACULTY_MISSPELLINGS_J : List Str := [lit "faculty", lit "facality", lit "faclty"]

/-- One position of `(?i)((?:faculty|facality|faclty)\s+of\s+[a-z]+)
(?:\s|$)`.  The capture is the exact matched text.  After the maximal
letter run the next character must be whitespace or the end; shorter runs
cannot satisfy `(?:\s|$)` because the following character is a letter. -/
def facOfXAt (s : Str) : Option Str :=
  firstSome FACULTY_MISSPELLINGS_J fun w =>
    match dropCI s w with
    | none => none
    | some r1 =>
      match dropWs1 r1 with
      | none => none
      | some r2 =>
        match dropCI r2 (lit "of") with
        | none => none
        | some r3 =>
          match dropWs1 r3 with
          | none => none
          | some r4 =>
            let run := r4.takeWhile isAlphaA
            if run.isEmpty then none
            else
              match r4.drop run.length with
              | [] => some (s.take (s.length - (r4.length - run.length)))
              | c :: _ =>
                if isWs c then some (s.take (s.length - (r4.length - run.length)))
                else none

def searchFacOfX (s : Str) : Option Str := searchPos facOfXAt s

/-- The `is_city_start` test of the word-by-word faculty fallback, applied
to the suffix of the word list starting at the current index. -/
def isCityStart (ws : List Str) : Bool :=
  CITY_KEYS.any fun city =>
    strContains city (lit " ") &&
    (let cw := pySplit city
     (decide (cw.length ≤ ws.length) && decide ((ws.take cw.length).map pyLower = cw)) ||
     (match cw, ws with
      | c0 :: _, w :: _ :: _ => decide (pyLower w = c0)
      | _, _ => false))

def facWordLoop : List Str → List Str
  | [] => []
  | ws@(w :: t) =>
    if isCityStart ws || dictHas CITY_TO_COUNTRY (pyLower w) then []
    else if strContains (pyLower w) (lit "univ") then []
    else w :: facWordLoop t

def TRAILING_CITY_PARTICLES : List Str :=
  [lit "new", lit "old", lit "el", lit "al", lit "sheikh"]

/-- The trailing-word strip loop (`while result_words and len > 2`). -/
def popTrailFuel : Nat → List Str → List Str
  | 0, ws => ws
  | f + 1, ws =>
    if 2 < ws.length then
      match ws.getLast? with
      | some last =>
        if dictHas CITY_TO_COUNTRY (pyLower last)
            || TRAILING_CITY_PARTICLES.contains (pyLower last)
        then popTrailFuel f ws.dropLast
        else ws
      | none => ws
    else ws

def popTrail (ws : List Str) : List Str := popTrailFuel ws.length ws

def fixFacultySpelling (s : Str) : Str :=
  pyReplace (pyReplace s (lit "Facality") (lit "Faculty")) (lit "Faclty") (lit "Faculty")

def facPart (p : Str) : Option Str :=
  let pl := pyLower p
  let hasFaculty := FACULTY_WORDS.any (fun w => strContains pl w)
      || strContains pl (lit "facality") || strContains pl (lit "faclty")
  if hasFaculty then
    match searchFacOfX p with
    | some cap => some (strip (fixFacultySpelling (pyTitle cap)))
    | none =>
      let fws := facWordLoop (pySplit p)
      if fws.isEmpty then none
      else
        let result := fixFacultySpelling (pyTitle (joinSp fws))
        let rw2 := popTrail (pySplit result)
        if !rw2.isEmpty then some (joinSp rw2) else some result
  else none

def extract_faculty (parts : List Str) : Str :=
  match firstSome parts facPart with
  | some r => r
  | none => []

/-! ### `extract_country`, `extract_university`, `extract_city` -/

def extract_country (parts : List Str) : Str :=
  match firstSome parts (fun p => dictGet COUNTRIES (pyLower p)) with
  | some c => c
  | none => []

def univWordLoop : List Str → List Str
  | [] => []
  | w :: t =>
    if dictHas CITY_TO_COUNTRY (pyLower w) then []
    else if FACULTY_WORDS.contains (pyLower w) then []
    else w :: univWordLoop t

def univPart (p : Str) : Option Str :=
  let low := pyLower p
  match dictGet UNIV_ALIASES low with
  | some full => some full
  | none =>
    match firstSome UNIV_ALIASES
        (fun kv => if strContains low kv.1 then some kv.2 else none) with
    | some full => some full
    | none =>
      if strContains low (lit "center") || strContains low (lit "centre") then
        some (pyTitle p)
      else if strContains low (lit "univ") then
        let uws := univWordLoop (pySplit p)
        if uws.isEmpty then none
        else
          let result := pyTitle (joinSp uws)
          some (if strContains result (lit "University") then result
                else pyReplace result (lit "Univ") (lit "University"))
      else none

def extract_university (parts : List Str) : Str :=
  match firstSome parts univPart with
  | some r => r
  | none => []

def cityCorrectOr (key : Str) (alt : Str) : Str :=
  match dictGet CITY_CORRECTIONS key with
  | some c => c
  | none => alt

/-- The token-window scan of `extract_city`, over suffixes of the word
list: at each index, first the multi-word city names (sorted by descending
word count), then the single word with its `used` check. -/
def cityWindow (used : List Str) : List Str → Option Str
  | [] => none
  | ws@(w :: t) =>
    match firstSome (sortByWCDesc CITY_KEYS) (fun city =>
      if strContains city (lit " ") then
        let cw := pySplit city
        if cw.length ≤ ws.length ∧ (ws.take cw.length).map pyLower = cw
        then some (cityCorrectOr city (pyTitle city)) else none
      else none) with
    | some r => some r
    | none =>
      if dictHas CITY_TO_COUNTRY (pyLower w) && !used.contains w
      then some (cityCorrectOr (pyLower w) (pyTitle w))
      else cityWindow used t

def cityPart (used : List Str) (p : Str) : Option Str :=
  let pl := pyLower p
  if dictHas CITY_TO_COUNTRY pl ∧ ¬ used.contains p then
    some (cityCorrectOr pl (pyTitle p))
  else
    match firstSome CITY_KEYS (fun city =>
      if strContains city (lit " ") ∧ startsW pl city
      then some (cityCorrectOr city (pyTitle city)) else none) with
    | some r => some r
    | none => cityWindow used (pySplit p)

/-- `re.sub(r'^new\s+', '', ·)` on an already-lowercased string. -/
def stripNewLower (pl : Str) : Str :=
  if startsW pl (lit "new") then
    match pl.drop 3 with
    | c :: t => if isWs c then (c :: t).dropWhile isWs else pl
    | [] => pl
  else pl

/-- `re.sub(r'^New\s+', '', ·, flags=re.IGNORECASE)`. -/
def stripNewCI (s : Str) : Str :=
  if (dropCI s (lit "new")).isSome then
    match s.drop 3 with
    | c :: t => if isWs c then (c :: t).dropWhile isWs else s
    | [] => s
  else s

def cityFallbackPart (used : List Str) (p : Str) : Option Str :=
  let pl := pyLower p
  let pls := stripNewLower pl
  if ¬ used.contains p ∧ ¬ dictHas COUNTRIES pl then
    some (match dictGet CITY_CORRECTIONS pl with
      | some c => c
      | none =>
        match dictGet CITY_CORRECTIONS pls with
        | some c => c
        | none =>
          if dictHas CITY_TO_COUNTRY pls then stripNewCI (pyTitle p)
          else pyTitle p)
  else none

def extract_city (parts : List Str) (used : List Str) : Str :=
  match firstSome parts (cityPart used) with
  | some r => r
  | none =>
    match firstSome parts (cityFallbackPart used) with
    | some r => r
    | none => []

/-! ### `smart_title_final` -/

def smartWord (isFirst : Bool) (w : Str) : Str :=
  let wl := pyLower w
  if isFirst || !(DONT_CAPITALIZE.contains wl) then pyCapitalize wl else wl

def smartWords : Bool → List Str → List Str
  | _, [] => []
  | isFirst, w :: t => smartWord isFirst w :: smartWords false t

def transformPart (part : Str) : Str :=
  if part = lit "," ∨ part = lit "." ∨ part = [] then part
  else joinSp (smartWords true (pySplit (strip part)))

def smartPartsOfText (text : Str) : List Str :=
  (splitBar (pyReplace (pyReplace text (lit ", ") (lit "|,|")) (lit ".") (lit "|.|"))).map
    transformPart

/-- The final rejoin loop of `smart_title_final`: concatenate the parts,
inserting a space after a `","` part whose successor is not `","`, `"."`
or empty. -/
def rejoinParts : List Str → Str
  | [] => []
  | [p] => p
  | p :: q :: t =>
    p ++ (if p = lit "," ∧ ¬(q = lit "," ∨ q = lit "." ∨ q = []) then [32] else [])
      ++ rejoinParts (q :: t)

def smart_title_final (text : Str) : Str :=
  if text.isEmpty then text
  else rejoinParts (smartPartsOfText text)

/-! ### `normalize_affiliation`, stage by stage -/

/-- The cleaned text: `clean`, parenthesis characters replaced by spaces,
`clean` again. -/
def rawCleanOf (raw : Str) : Str :=
  clean ((clean raw).map (fun c => if c = 40 ∨ c = 41 then 32 else c))

def partsOf (raw : Str) : List Str :=
  ((splitCommaNL (rawCleanOf raw)).filter (fun p => !(strip p).isEmpty)).map clean

def deptDirectOf (raw : Str) : Str := extract_department (rawCleanOf raw)

def facultyDirectOf (raw : Str) : Str := extract_faculty (partsOf raw)

def countryDirectOf (raw : Str) : Str := extract_country (partsOf raw)

/-- Tokens of the clause up to and including the first token containing
`"univ"` (all tokens when none does), as built by the token-level
second-chance university scan. -/
def takeUntilUniv : List Str → List Str
  | [] => []
  | t :: rest =>
    if strContains (pyLower t) (lit "univ") then [t] else t :: takeUntilUniv rest

/-- One clause of the second-chance scan: if some token contains `"univ"`
or is a university alias, rerun `extract_university` on the token span up
to the first `"univ"` token; a hit breaks the loops, an empty result
moves on (later trigger tokens of the same clause rebuild the same span
and result). -/
def univSecondChancePart (part : Str) : Option Str :=
  let tokens := pySplit part
  if tokens.any (fun t => strContains (pyLower t) (lit "univ")
      || dictHas UNIV_ALIASES (pyLower t)) then
    let r := extract_university [joinSp (takeUntilUniv tokens)]
    if r.isEmpty then none else some r
  else none

def univSecondChance (parts : List Str) : Str :=
  match firstSome parts univSecondChancePart with
  | some r => r
  | none => []

def univOf (raw : Str) : Str :=
  let u := extract_university (partsOf raw)
  if u.isEmpty then univSecondChance (partsOf raw) else u

/-- The leftmost match test of `re.sub(r"\s+(Facality|Faclty|Of|Medicine|
Domitta|Damitta)\b.*$", "", ·, flags=re.IGNORECASE)` at one position. -/
def GARBAGE_TAIL_WORDS : List Str :=
  [lit "facality", lit "faclty", lit "of", lit "medicine", lit "domitta", lit "damitta"]

def garbageTailAt : Str → Bool
  | [] => false
  | c :: t =>
    isWs c &&
    (let r := (c :: t).dropWhile isWs
     GARBAGE_TAIL_WORDS.any fun w =>
       match dropCI r w with
       | none => false
       | some [] => true
       | some (d :: _) => !isWordA d)

/-- The substitution itself: everything from the leftmost match to the end
of the string is removed (`.*$`; the inputs contain no newline, being
title-cased clause text). -/
def subTrailGarbage : Str → Str
  | [] => []
  | s@(c :: t) => if garbageTailAt s then [] else c :: subTrailGarbage t

/-- The first-clause-as-department heuristic. -/
def deptHeuristic (first : Str) : Str :=
  let fl := pyLower first
  let hasFacultyWord := FACULTY_WORDS.any (fun w => strContains fl w)
      || strContains fl (lit "facality") || strContains fl (lit "faclty")
  if ¬ strContains fl (lit "center") ∧ ¬ strContains fl (lit "centre") then
    if ¬ ((lit "univ" :: CITY_KEYS).any (fun w => strContains fl w)) ∧ ¬ hasFacultyWord then
      if ¬ dictHas UNIV_ALIASES fl then strip (subTrailGarbage (pyTitle first))
      else []
    else []
  else []

def deptOf (raw : Str) : Str :=
  let d := deptDirectOf raw
  if d.isEmpty then
    match partsOf raw with
    | [] => d
    | first :: _ => deptHeuristic first
  else d

def usedLowerOf (raw : Str) : List Str :=
  ([deptOf raw, facultyDirectOf raw, countryDirectOf raw, univOf raw].filter
    (fun s => !s.isEmpty)).map pyLower

def usedPartsOf (raw : Str) : List Str :=
  (partsOf raw).filter fun part =>
    let pl := pyLower part
    (usedLowerOf raw).contains pl ||
    (usedLowerOf raw).any (fun u => strContains u pl || strContains pl u)

def cityScanOf (raw : Str) : Str := extract_city (partsOf raw) (usedPartsOf raw)

def cityFromUniv (univ : Str) : Str :=
  match firstSome CITY_KEYS (fun cn =>
    if strContains (pyLower univ) cn then some (cityCorrectOr cn (pyTitle cn))
    else none) with
  | some c => c
  | none => []

def cityOf (raw : Str) : Str :=
  let c := cityScanOf raw
  if c.isEmpty ∧ ¬ (univOf raw).isEmpty then cityFromUniv (univOf raw) else c

def inferFacultyFromDept (dept : Str) : Str :=
  match firstSome DEPT_TO_FACULTY
      (fun kv => if strContains (pyLower dept) kv.1 then some kv.2 else none) with
  | some f => f
  | none => []

def facultyOf (raw : Str) : Str :=
  if ¬ (deptOf raw).isEmpty ∧ (facultyDirectOf raw).isEmpty then
    inferFacultyFromDept (deptOf raw)
  else facultyDirectOf raw

def inferCountryFromCity (city : Str) : Str :=
  match dictGet CITY_TO_COUNTRY (pyLower city) with
  | some c => c
  | none => []

def countryOf (raw : Str) : Str :=
  if ¬ (cityOf raw).isEmpty ∧ (countryDirectOf raw).isEmpty then
    inferCountryFromCity (cityOf raw)
  else countryDirectOf raw

def outFieldsOf (raw : Str) : List Str :=
  (if ¬ (deptOf raw).isEmpty then [lit "Department of " ++ deptOf raw] else []) ++
  (if ¬ (facultyOf raw).isEmpty then [facultyOf raw] else []) ++
  (if ¬ (univOf raw).isEmpty then [univOf raw] else []) ++
  (if ¬ (cityOf raw).isEmpty then [cityOf raw] else []) ++
  (if ¬ (countryOf raw).isEmpty then [countryOf raw] else [])

def assembledOf (raw : Str) : Str := joinSep (lit ", ") (outFieldsOf raw) ++ [46]

def normalize_affiliation (raw : Str) : Str := smart_title_final (assembledOf raw)

/-- Clause list as described by the (amended) spec sentence: split the
cleaned input on commas only, trim each piece, drop empty results. -/
def partsCommaOnlySpec (raw : Str) : List Str :=
  ((splitCommaOnly (rawCleanOf raw)).filter (fun p => !(strip p).isEmpty)).map clean

/-! ## Lemmas: characters and case -/

theorem lowerC_idem (c : Nat) : lowerC (lowerC c) = lowerC c := by
  simp only [lowerC, isUpperA, Bool.and_eq_true, decide_eq_true_eq]
  split_ifs <;> omega

theorem lowerC_upperC (c : Nat) : lowerC (upperC c) = lowerC c := by
  simp only [lowerC, upperC, isUpperA, isLowerA, Bool.and_eq_true, decide_eq_true_eq]
  split_ifs <;> omega

theorem isWs_eq_false_of_range (c : Nat) (h1 : 33 ≤ c) : isWs c = false := by
  rw [Bool.eq_false_iff]
  intro hb
  simp only [isWs, Bool.or_eq_true, decide_eq_true_eq] at hb
  omega

theorem isWs_lowerC (c : Nat) : isWs (lowerC c) = isWs c := by
  simp only [lowerC, isUpperA, Bool.and_eq_true, decide_eq_true_eq]
  split_ifs with h
  · rw [isWs_eq_false_of_range (c + 32) (by omega), isWs_eq_false_of_range c (by omega)]
  · rfl

theorem isWs_upperC (c : Nat) : isWs (upperC c) = isWs c := by
  simp only [upperC, isLowerA, Bool.and_eq_true, decide_eq_true_eq]
  split_ifs with h
  · rw [isWs_eq_false_of_range (c - 32) (by omega), isWs_eq_false_of_range c (by omega)]
  · rfl

theorem isUpperA_lowerC (c : Nat) : isUpperA (lowerC c) = false := by
  simp only [lowerC, isUpperA, Bool.and_eq_true, decide_eq_true_eq]
  split_ifs with h <;>
    (rw [Bool.eq_false_iff]
     intro hb
     simp only [isUpperA, Bool.and_eq_true, decide_eq_true_eq] at hb
     omega)

/-! ## Lemmas: `pyLower`, `pyTitle`, `pyCapitalize` -/

theorem pyLower_idem (s : Str) : pyLower (pyLower s) = pyLower s := by
  simp [pyLower, Function.comp, lowerC_idem]

theorem pyLower_pyTitleAux (b : Bool) (s : Str) :
    pyLower (pyTitleAux b s) = pyLower s := by
  induction s generalizing b with
  | nil => rfl
  | cons c t ih =>
    simp only [pyTitleAux, pyLower, List.map] at ih ⊢
    refine congrArg₂ List.cons ?_ (ih _)
    split
    · split
      · exact lowerC_idem c
      · exact lowerC_upperC c
    · rfl

theorem pyLower_pyTitle (s : Str) : pyLower (pyTitle s) = pyLower s :=
  pyLower_pyTitleAux false s

theorem pyLower_pyCapitalize (s : Str) : pyLower (pyCapitalize s) = pyLower s := by
  cases s with
  | nil => rfl
  | cons c t =>
    simp only [pyCapitalize, pyLower, List.map]
    exact congrArg₂ List.cons (lowerC_upperC c) (by
      simpa [pyLower] using pyLower_idem t)

theorem length_pyTitleAux (b : Bool) (s : Str) :
    (pyTitleAux b s).length = s.length := by
  induction s generalizing b with
  | nil => rfl
  | cons c t ih => simp [pyTitleAux, ih]

theorem pyTitle_ne_nil (s : Str) (h : s ≠ []) : pyTitle s ≠ [] := by
  intro hc
  apply h
  have := length_pyTitleAux false s
  rw [pyTitle] at hc
  rw [hc] at this
  exact List.length_eq_zero.mp this.symm

theorem pyLower_ne_nil (s : Str) (h : s ≠ []) : pyLower s ≠ [] := by
  intro hc
  exact h (List.map_eq_nil_iff.mp hc)

theorem ne_nil_of_pyLower_ne_nil (s : Str) (h : pyLower s ≠ []) : s ≠ [] := by
  intro hc
  exact h (by rw [hc]; rfl)

/-! ## Lemmas: `startsW`, `strContains` -/

theorem startsW_refl (s : Str) : startsW s s = true := by
  induction s with
  | nil => rfl
  | cons c t ih => simp [startsW, ih]

theorem startsW_nil (s : Str) : startsW s [] = true := by
  cases s <;> rfl

theorem startsW_append (s n r : Str) (h : startsW s n = true) :
    startsW (s ++ r) n = true := by
  induction n generalizing s with
  | nil => exact startsW_nil _
  | cons d e ih =>
    cases s with
    | nil => simp [startsW] at h
    | cons c t =>
      simp only [startsW, Bool.and_eq_true] at h
      simp only [List.cons_append, startsW, Bool.and_eq_true]
      exact ⟨h.1, ih t h.2⟩

theorem strContains_refl (s : Str) : strContains s s = true := by
  cases s with
  | nil => rfl
  | cons c t => simp [strContains, startsW_refl]

theorem strContains_append_left (s r n : Str) (h : strContains s n = true) :
    strContains (s ++ r) n = true := by
  induction s with
  | nil =>
    simp only [strContains, List.isEmpty_iff] at h
    subst h
    cases r with
    | nil => rfl
    | cons c t => simp [strContains, startsW]
  | cons c t ih =>
    simp only [strContains, Bool.or_eq_true] at h
    rcases h with h | h
    · simp only [List.cons_append, strContains, Bool.or_eq_true]
      exact Or.inl (startsW_append _ _ _ h)
    · simp only [List.cons_append, strContains, Bool.or_eq_true]
      exact Or.inr (ih h)

theorem strContains_append_right (r s n : Str) (h : strContains s n = true) :
    strContains (r ++ s) n = true := by
  induction r with
  | nil => exact h
  | cons c t ih =>
    simp only [List.cons_append, strContains, Bool.or_eq_true]
    exact Or.inr ih

theorem strContains_of_eq (s n : Str) (h : s = n) : strContains s n = true := by
  subst h; exact strContains_refl s

/-! ## Lemmas: `firstSome` and `dictGet` -/

theorem firstSome_eq_some {α β : Type} (l : List α) (f : α → Option β) (b : β)
    (h : firstSome l f = some b) : ∃ a ∈ l, f a = some b := by
  induction l with
  | nil => simp [firstSome] at h
  | cons x t ih =>
    simp only [firstSome] at h
    cases hx : f x with
    | some r =>
      rw [hx] at h
      refine ⟨x, List.mem_cons_self x t, ?_⟩
      rw [hx]
      exact h
    | none =>
      rw [hx] at h
      obtain ⟨a, ha, hfa⟩ := ih h
      exact ⟨a, List.mem_cons_of_mem x ha, hfa⟩

theorem firstSome_eq_none {α β : Type} (l : List α) (f : α → Option β)
    (h : ∀ a ∈ l, f a = none) : firstSome l f = none := by
  induction l with
  | nil => rfl
  | cons x t ih =>
    simp only [firstSome]
    rw [h x (List.mem_cons_self x t)]
    exact ih (fun a ha => h a (List.mem_cons_of_mem x ha))

theorem firstSome_isSome {α β : Type} (l : List α) (f : α → Option β) (a : α)
    (ha : a ∈ l) (hf : (f a).isSome) : (firstSome l f).isSome := by
  induction l with
  | nil => simp at ha
  | cons x t ih =>
    simp only [firstSome]
    cases hx : f x with
    | some r => rfl
    | none =>
      rcases List.mem_cons.mp ha with h | h
      · subst h; rw [hx] at hf; simp at hf
      · exact ih h

theorem firstSome_singleton {α β : Type} (a : α) (f : α → Option β) :
    firstSome [a] f = f a := by
  simp only [firstSome]
  cases f a <;> rfl

theorem dictGet_eq_some {d : List (Str × Str)} {k v : Str}
    (h : dictGet d k = some v) : ∃ kv ∈ d, k = kv.1 ∧ v = kv.2 := by
  induction d with
  | nil => simp [dictGet] at h
  | cons kv t ih =>
    obtain ⟨k0, v0⟩ := kv
    simp only [dictGet] at h
    split at h
    · rename_i heq
      exact ⟨(k0, v0), List.mem_cons_self _ _, heq, by injection h with h2; exact h2.symm⟩
    · obtain ⟨kv, hm, h1, h2⟩ := ih h
      exact ⟨kv, List.mem_cons_of_mem _ hm, h1, h2⟩

theorem dictHas_eq_some (d : List (Str × Str)) (k : Str)
    (h : dictHas d k = true) : ∃ kv ∈ d, k = kv.1 := by
  simp only [dictHas, Option.isSome_iff_exists] at h
  obtain ⟨v, hv⟩ := h
  obtain ⟨kv, hm, h1, _⟩ := dictGet_eq_some hv
  exact ⟨kv, hm, h1⟩

theorem dictGet_eq_none (d : List (Str × Str)) (k : Str)
    (h : ∀ kv ∈ d, k ≠ kv.1) : dictGet d k = none := by
  induction d with
  | nil => rfl
  | cons kv t ih =>
    obtain ⟨k0, v0⟩ := kv
    simp only [dictGet]
    rw [if_neg (h (k0, v0) (List.mem_cons_self _ _))]
    exact ih (fun kv hm => h kv (List.mem_cons_of_mem _ hm))

/-! ## Lemmas: `pySplit` and `joinSp` -/

theorem pySplitAux_mem (s acc : Str) (hacc : ∀ c ∈ acc, isWs c = false) :
    ∀ w ∈ pySplitAux acc s, w ≠ [] ∧ ∀ c ∈ w, isWs c = false := by
  induction s generalizing acc with
  | nil =>
    intro w hw
    simp only [pySplitAux] at hw
    split at hw
    · simp at hw
    · rename_i hne
      simp only [List.mem_singleton] at hw
      subst hw
      refine ⟨by simpa [List.isEmpty_iff] using hne, ?_⟩
      intro c hc
      exact hacc c (List.mem_reverse.mp hc)
  | cons c t ih =>
    intro w hw
    simp only [pySplitAux] at hw
    split at hw
    · split at hw
      · exact ih [] (by simp) w hw
      · rename_i hne
        rcases List.mem_cons.mp hw with h | h
        · subst h
          refine ⟨by simpa [List.isEmpty_iff] using hne, ?_⟩
          intro d hd
          exact hacc d (List.mem_reverse.mp hd)
        · exact ih [] (by simp) w h
    · rename_i hcws
      refine ih (c :: acc) ?_ w hw
      intro d hd
      rcases List.mem_cons.mp hd with h | h
      · subst h; simpa using hcws
      · exact hacc d h

theorem pySplit_mem (s : Str) :
    ∀ w ∈ pySplit s, w ≠ [] ∧ ∀ c ∈ w, isWs c = false :=
  pySplitAux_mem s [] (by simp)

theorem pySplitAux_nows_append (x : Str) (hx : ∀ c ∈ x, isWs c = false) :
    ∀ acc s, pySplitAux acc (x ++ s) = pySplitAux (x.reverse ++ acc) s := by
  induction x with
  | nil => intro acc s; simp
  | cons c t ih =>
    intro acc s
    have hc : isWs c = false := hx c (List.mem_cons_self _ _)
    calc pySplitAux acc ((c :: t) ++ s)
        = pySplitAux (c :: acc) (t ++ s) := by
          simp [pySplitAux, hc]
      _ = pySplitAux (t.reverse ++ (c :: acc)) s :=
          ih (fun d hd => hx d (List.mem_cons_of_mem _ hd)) (c :: acc) s
      _ = pySplitAux ((c :: t).reverse ++ acc) s := by
          simp [List.append_assoc]

theorem pySplit_single (x : Str) (hne : x ≠ []) (hx : ∀ c ∈ x, isWs c = false) :
    pySplit x = [x] := by
  have h := pySplitAux_nows_append x hx [] []
  simp only [List.append_nil] at h
  rw [pySplit, h]
  simp only [pySplitAux]
  rw [if_neg (by simpa [List.isEmpty_iff] using (by simpa using hne : x.reverse ≠ []))]
  simp

theorem joinSp_cons_cons (x y : Str) (t : List Str) :
    joinSp (x :: y :: t) = x ++ 32 :: joinSp (y :: t) := by
  simp [joinSp, joinSep]

theorem pySplit_joinSp (ts : List Str)
    (h : ∀ w ∈ ts, w ≠ [] ∧ ∀ c ∈ w, isWs c = false) :
    pySplit (joinSp ts) = ts := by
  induction ts with
  | nil => rfl
  | cons x t ih =>
    cases t with
    | nil =>
      obtain ⟨hne, hws⟩ := h x (List.mem_cons_self _ _)
      simpa [joinSp, joinSep] using pySplit_single x hne hws
    | cons y t2 =>
      obtain ⟨hne, hws⟩ := h x (List.mem_cons_self _ _)
      rw [joinSp_cons_cons]
      rw [pySplit, pySplitAux_nows_append x hws [] _]
      have hxr : (x.reverse.isEmpty) = false := by
        simp [List.isEmpty_iff, hne]
      simp only [List.append_nil, pySplitAux, hxr]
      rw [if_pos (show isWs 32 = true from rfl)]
      simp only [Bool.false_eq_true, if_false, List.reverse_reverse]
      have ihr := ih (fun w hw => h w (List.mem_cons_of_mem _ hw))
      rw [pySplit] at ihr
      simp [ihr]

theorem joinSp_append (a b : List Str) (ha : a ≠ []) (hb : b ≠ []) :
    joinSp (a ++ b) = joinSp a ++ 32 :: joinSp b := by
  induction a with
  | nil => simp at ha
  | cons x t ih =>
    cases t with
    | nil =>
      cases b with
      | nil => simp at hb
      | cons y t2 => simp [joinSp, joinSep]
    | cons y t2 =>
      have ihy := ih (by simp)
      calc joinSp ((x :: y :: t2) ++ b)
          = joinSp (x :: y :: (t2 ++ b)) := by simp
        _ = x ++ 32 :: joinSp (y :: (t2 ++ b)) := joinSp_cons_cons x y (t2 ++ b)
        _ = x ++ 32 :: joinSp ((y :: t2) ++ b) := by simp
        _ = x ++ 32 :: (joinSp (y :: t2) ++ 32 :: joinSp b) := by rw [ihy]
        _ = (x ++ 32 :: joinSp (y :: t2)) ++ 32 :: joinSp b := by simp
        _ = joinSp (x :: y :: t2) ++ 32 :: joinSp b := by rw [joinSp_cons_cons]

theorem mem_joinSp_decomp (t : Str) (ts : List Str) (h : t ∈ ts) :
    ∃ u v, joinSp ts = u ++ t ++ v := by
  induction ts with
  | nil => simp at h
  | cons x rest ih =>
    rcases List.mem_cons.mp h with h | h
    · subst h
      cases rest with
      | nil => exact ⟨[], [], by simp [joinSp, joinSep]⟩
      | cons y t2 => exact ⟨[], 32 :: joinSp (y :: t2), by rw [joinSp_cons_cons]; simp⟩
    · obtain ⟨u, v, hu⟩ := ih h
      cases rest with
      | nil => simp at h
      | cons y t2 =>
        refine ⟨x ++ 32 :: u, v, ?_⟩
        rw [joinSp_cons_cons, hu]
        simp

/-! ## Lemmas: cleaning leaves no newline, so clause splitting is on commas -/

theorem nl_not_mem_collapseWsAux (b : Bool) (s : Str) :
    (10 : Nat) ∉ collapseWsAux b s := by
  induction s generalizing b with
  | nil => simp [collapseWsAux]
  | cons c t ih =>
    simp only [collapseWsAux]
    split
    · split
      · exact ih true
      · intro hm
        rcases List.mem_cons.mp hm with h | h
        · omega
        · exact ih true h
    · rename_i hcws
      intro hm
      rcases List.mem_cons.mp hm with h | h
      · subst h
        simp [isWs] at hcws
      · exact ih false h

theorem nl_not_mem_clean (s : Str) : (10 : Nat) ∉ clean s :=
  nl_not_mem_collapseWsAux false (strip s)

theorem nl_not_mem_rawCleanOf (raw : Str) : (10 : Nat) ∉ rawCleanOf raw :=
  nl_not_mem_clean _

theorem splitCommaNL_eq_splitCommaOnly (s : Str) (h : (10 : Nat) ∉ s) :
    splitCommaNL s = splitCommaOnly s := by
  induction s with
  | nil => rfl
  | cons c t ih =>
    have hc : c ≠ 10 := fun hc => h (hc ▸ List.mem_cons_self c t)
    have ht : (10 : Nat) ∉ t := fun hm => h (List.mem_cons_of_mem c hm)
    simp only [splitCommaNL, splitCommaOnly]
    have hcond : (decide (c = 44) || decide (c = 10)) = decide (c = 44) := by
      simp [hc]
    rw [hcond, ih ht]
    simp

/-! ## Lemmas: the final output always ends in a period -/

theorem pyReplaceFuel_nil (n : Nat) (old new : Str) :
    pyReplaceFuel n [] old new = [] := by
  cases n <;> rfl

theorem replaceCommaSp_ends (n : Nat) (u : Str) (hn : u.length + 1 ≤ n) :
    ∃ v, pyReplaceFuel n (u ++ [46]) [44, 32] [124, 44, 124] = v ++ [46] := by
  induction n generalizing u with
  | zero => omega
  | succ n ih =>
    cases u with
    | nil =>
      refine ⟨[], ?_⟩
      simp only [List.nil_append, pyReplaceFuel]
      rw [if_neg (by simp [startsW])]
      rw [pyReplaceFuel_nil]
    | cons c u1 =>
      by_cases hs : startsW (c :: (u1 ++ [46])) [44, 32] = true
      · cases u1 with
        | nil => simp [startsW] at hs
        | cons d u2 =>
          simp only [startsW, Bool.and_eq_true, decide_eq_true_eq] at hs
          obtain ⟨hc, hd, -⟩ := hs
          subst hc
          subst hd
          have hlen : u2.length + 1 ≤ n := by
            simp at hn
            omega
          obtain ⟨v, hv⟩ := ih u2 hlen
          refine ⟨[124, 44, 124] ++ v, ?_⟩
          simp only [List.cons_append, pyReplaceFuel]
          rw [if_pos (by simp [startsW])]
          simp [hv]
      · obtain ⟨v, hv⟩ := ih u1 (by simp at hn; omega)
        refine ⟨c :: v, ?_⟩
        simp only [List.cons_append, pyReplaceFuel]
        rw [if_neg (by simpa using hs)]
        simp [hv]

theorem replaceDot_ends (n : Nat) (u : Str) (hn : u.length + 1 ≤ n) :
    ∃ v, pyReplaceFuel n (u ++ [46]) [46] [124, 46, 124] = v ++ [124, 46, 124] := by
  induction n generalizing u with
  | zero => omega
  | succ n ih =>
    cases u with
    | nil =>
      refine ⟨[], ?_⟩
      simp only [List.nil_append, pyReplaceFuel]
      rw [if_pos (by simp [startsW])]
      simp [pyReplaceFuel_nil]
    | cons c u1 =>
      by_cases hc : c = 46
      · subst hc
        obtain ⟨v, hv⟩ := ih u1 (by simp at hn; omega)
        refine ⟨[124, 46, 124] ++ v, ?_⟩
        simp only [List.cons_append, pyReplaceFuel]
        rw [if_pos (by simp [startsW])]
        simp [hv]
      · obtain ⟨v, hv⟩ := ih u1 (by simp at hn; omega)
        refine ⟨c :: v, ?_⟩
        simp only [List.cons_append, pyReplaceFuel]
        rw [if_neg (by simp [startsW, hc])]
        simp [hv]

theorem splitBar_ne_nil (s : Str) : splitBar s ≠ [] := by
  cases s with
  | nil => simp [splitBar]
  | cons c t =>
    simp only [splitBar]
    split
    · simp
    · split
      · simp
      · simp

theorem splitBar_append_sep (a b : Str) :
    splitBar (a ++ 124 :: b) = splitBar a ++ splitBar b := by
  induction a with
  | nil =>
    show splitBar (124 :: b) = splitBar [] ++ splitBar b
    simp [splitBar]
  | cons c a1 ih =>
    show splitBar (c :: (a1 ++ 124 :: b)) = splitBar (c :: a1) ++ splitBar b
    by_cases hc : c = 124
    · subst hc
      simp [splitBar, ih]
    · simp only [splitBar, ih]
      rw [if_neg hc, if_neg hc]
      cases ha : splitBar a1 with
      | nil => exact absurd ha (splitBar_ne_nil a1)
      | cons p ps => simp [ha]

theorem rejoinParts_snoc_dot (xs : List Str) :
    ∃ u, rejoinParts (xs ++ [[46], []]) = u ++ [46] := by
  induction xs with
  | nil => exact ⟨[], by decide⟩
  | cons p xs ih =>
    obtain ⟨u, hu⟩ := ih
    cases hq : xs ++ [[46], []] with
    | nil => simp at hq
    | cons q t =>
      refine ⟨p ++ (if p = lit "," ∧ ¬(q = lit "," ∨ q = lit "." ∨ q = []) then [32] else []) ++ u, ?_⟩
      have : (p :: xs) ++ [[46], []] = p :: q :: t := by rw [← hq]; rfl
      rw [this]
      show p ++ _ ++ rejoinParts (q :: t) = _
      rw [← hq, hu]
      simp [List.append_assoc]

theorem smart_title_final_ends_dot (t : Str) :
    ∃ u, smart_title_final (t ++ [46]) = u ++ [46] := by
  have hlit1 : lit ", " = [44, 32] := rfl
  have hlit2 : lit "|,|" = [124, 44, 124] := rfl
  have hlit3 : lit "." = [46] := rfl
  have hlit4 : lit "|.|" = [124, 46, 124] := rfl
  obtain ⟨v1, hv1⟩ := replaceCommaSp_ends (t ++ [46]).length t (by simp)
  obtain ⟨v2, hv2⟩ := replaceDot_ends (v1 ++ [46]).length v1 (by simp)
  have h1 : pyReplace (t ++ [46]) (lit ", ") (lit "|,|") = v1 ++ [46] := by
    rw [pyReplace, hlit1, hlit2]
    exact hv1
  have h2 : pyReplace (v1 ++ [46]) (lit ".") (lit "|.|") = v2 ++ [124, 46, 124] := by
    rw [pyReplace, hlit3, hlit4]
    exact hv2
  have hsb : splitBar (v2 ++ [124, 46, 124]) = splitBar v2 ++ [[46], []] := by
    have ha : v2 ++ [124, 46, 124] = v2 ++ 124 :: [46, 124] := rfl
    rw [ha, splitBar_append_sep]
    have hb : ([46, 124] : Str) = [46] ++ 124 :: [] := rfl
    rw [hb, splitBar_append_sep]
    rfl
  obtain ⟨u, hu⟩ := rejoinParts_snoc_dot ((splitBar v2).map transformPart)
  refine ⟨u, ?_⟩
  have hne : ¬((t ++ [46]).isEmpty = true) := by simp
  rw [smart_title_final, if_neg hne]
  rw [smartPartsOfText, h1, h2, hsb, List.map_append]
  have hmap : ([[46], []] : List Str).map transformPart = [[46], []] := by decide
  rw [hmap, hu]

/-! ## Lemmas: whitespace-only input -/

theorem rawCleanOf_allWs (raw : Str) (h : ∀ c ∈ raw, isWs c = true) :
    rawCleanOf raw = [] := by
  have hdrop : raw.dropWhile isWs = [] := List.dropWhile_eq_nil_iff.mpr h
  have hstrip : strip raw = [] := by
    rw [strip, hdrop]
    rfl
  have hclean : clean raw = [] := by
    rw [clean, hstrip]
    rfl
  rw [rawCleanOf, hclean]
  rfl

theorem normalize_affiliation_of_rawClean_nil (raw : Str)
    (h : rawCleanOf raw = []) : normalize_affiliation raw = lit "." := by
  have hp : partsOf raw = [] := by rw [partsOf, h]; rfl
  have hd0 : deptDirectOf raw = [] := by rw [deptDirectOf, h]; rfl
  have hd : deptOf raw = [] := by
    rw [deptOf, hd0, hp]
    rfl
  have hf0 : facultyDirectOf raw = [] := by rw [facultyDirectOf, hp]; rfl
  have hc0 : countryDirectOf raw = [] := by rw [countryDirectOf, hp]; rfl
  have hu : univOf raw = [] := by rw [univOf, hp]; rfl
  have hcs : cityScanOf raw = [] := by
    rw [cityScanOf, hp]
    rfl
  have hcy : cityOf raw = [] := by
    rw [cityOf, hcs, hu]
    simp
  have hfa : facultyOf raw = [] := by
    rw [facultyOf, hd, hf0]
    simp
  have hco : countryOf raw = [] := by
    rw [countryOf, hcy, hc0]
    simp
  have hout : outFieldsOf raw = [] := by
    rw [outFieldsOf, hd, hfa, hu, hcy, hco]
    simp
  have hasm : assembledOf raw = [46] := by
    rw [assembledOf, hout]
    rfl
  rw [normalize_affiliation, hasm]
  rfl

/-! ## Claim theorems -/

/-- C4: `normalize_affiliation` is total and never raises — in this
embedding it is a total function — and for every input it returns a string
ending in a period; for the empty string and for whitespace-only input the
result is the fixed constant `"."`. -/
theorem C4_total_and_ends_with_period :
    (∀ raw : Str, ∃ u, normalize_affiliation raw = u ++ lit ".") ∧
    normalize_affiliation (lit "") = lit "." ∧
    (∀ raw : Str, (∀ c ∈ raw, isWs c = true) → normalize_affiliation raw = lit ".") := by
  refine ⟨?_, by decide, ?_⟩
  · intro raw
    have h := smart_title_final_ends_dot (joinSep (lit ", ") (outFieldsOf raw))
    rw [normalize_affiliation, assembledOf]
    exact h
  · intro raw h
    exact normalize_affiliation_of_rawClean_nil raw (rawCleanOf_allWs raw h)

theorem C4_witness :
    normalize_affiliation (lit " ") = lit "." ∧
    (∃ u, normalize_affiliation (lit "Cairo") = u ++ lit ".") :=
  ⟨C4_total_and_ends_with_period.2.2 (lit " ") (by decide),
   C4_total_and_ends_with_period.1 (lit "Cairo")⟩

/-- C3 counterexample: a newline does not act as a clause boundary — the
`clean` pass collapses it to a space before the split — so the two inputs
of the claim normalize differently. -/
theorem C3_newline_counterexample :
    normalize_affiliation (lit "Faculty of Medicine\nEgypt") = lit "Faculty of Medicine." ∧
    normalize_affiliation (lit "Faculty of Medicine, Egypt") = lit "Faculty of Medicine, Egypt." ∧
    normalize_affiliation (lit "Faculty of Medicine\nEgypt") ≠
      normalize_affiliation (lit "Faculty of Medicine, Egypt") := by
  have h1 : normalize_affiliation (lit "Faculty of Medicine\nEgypt") =
      lit "Faculty of Medicine." := by decide
  have h2 : normalize_affiliation (lit "Faculty of Medicine, Egypt") =
      lit "Faculty of Medicine, Egypt." := by decide
  refine ⟨h1, h2, ?_⟩
  rw [h1, h2]
  decide

/-- C3 amended: the clause list splits the cleaned input on commas only —
newlines never reach the splitter because cleaning collapses every
whitespace character (newlines included) to a single space. -/
theorem C3_amended_split_on_commas_only :
    ∀ raw : Str, partsOf raw = partsCommaOnlySpec raw := by
  intro raw
  rw [partsOf, partsCommaOnlySpec,
    splitCommaNL_eq_splitCommaOnly _ (nl_not_mem_rawCleanOf raw)]

/-- C8: the inference fallbacks never override a direct extraction: a
non-empty direct faculty, country, or scanned city is exactly the final
field value (so department-to-faculty, city-to-country, and
city-from-university inference are skipped). -/
theorem C8_inference_never_overrides :
    ∀ raw : Str,
      (facultyDirectOf raw ≠ [] → facultyOf raw = facultyDirectOf raw) ∧
      (countryDirectOf raw ≠ [] → countryOf raw = countryDirectOf raw) ∧
      (cityScanOf raw ≠ [] → cityOf raw = cityScanOf raw) := by
  intro raw
  refine ⟨?_, ?_, ?_⟩
  · intro h
    rw [facultyOf, if_neg (fun hcond => h (List.isEmpty_iff.mp hcond.2))]
  · intro h
    rw [countryOf, if_neg (fun hcond => h (List.isEmpty_iff.mp hcond.2))]
  · intro h
    simp only [cityOf]
    rw [if_neg (fun hcond => h (List.isEmpty_iff.mp hcond.1))]

theorem C8_witness :
    facultyOf (lit "Faculty of Medicine, Cairo, Egypt") =
      facultyDirectOf (lit "Faculty of Medicine, Cairo, Egypt") ∧
    countryOf (lit "Faculty of Medicine, Cairo, Egypt") =
      countryDirectOf (lit "Faculty of Medicine, Cairo, Egypt") ∧
    cityOf (lit "Faculty of Medicine, Cairo, Egypt") =
      cityScanOf (lit "Faculty of Medicine, Cairo, Egypt") := by
  obtain ⟨h1, h2, h3⟩ := C8_inference_never_overrides (lit "Faculty of Medicine, Cairo, Egypt")
  exact ⟨h1 (by decide), h2 (by decide), h3 (by decide)⟩

/-- C1 counterexample: on the claimed input the output casing differs from
the claim — the final smart-title pass rewrites the resolved alias
"Al-Azhar University" to "Al-azhar University", so the output does not
contain the string "Al-Azhar University". -/
theorem C1_counterexample :
    normalize_affiliation (lit "Psychology department, Damietta, alazhar") =
      lit "Department of Psychology, Faculty of Medicine, Al-azhar University, Damietta, Egypt." ∧
    strContains (normalize_affiliation (lit "Psychology department, Damietta, alazhar"))
      (lit "Al-Azhar University") = false ∧
    strContains (normalize_affiliation (lit "Psychology department, Damietta, alazhar"))
      (lit "Faculty Of Medicine") = false := by
  have h : normalize_affiliation (lit "Psychology department, Damietta, alazhar") =
      lit "Department of Psychology, Faculty of Medicine, Al-azhar University, Damietta, Egypt." := by
    decide
  refine ⟨h, ?_, ?_⟩ <;> (rw [h]; decide)

/-- C1 amended: on input "Psychology department, Damietta, alazhar" the
output contains "Department of Psychology", the city "Damietta", the
country "Egypt", the inferred faculty as "Faculty of Medicine", and the
resolved university alias in its final casing "Al-azhar University". -/
theorem C1_amended_psychology_example :
    strContains (normalize_affiliation (lit "Psychology department, Damietta, alazhar"))
      (lit "Department of Psychology") = true ∧
    strContains (normalize_affiliation (lit "Psychology department, Damietta, alazhar"))
      (lit "Al-azhar University") = true ∧
    strContains (normalize_affiliation (lit "Psychology department, Damietta, alazhar"))
      (lit "Damietta") = true ∧
    strContains (normalize_affiliation (lit "Psychology department, Damietta, alazhar"))
      (lit "Egypt") = true ∧
    strContains (normalize_affiliation (lit "Psychology department, Damietta, alazhar"))
      (lit "Faculty of Medicine") = true := by
  have h : normalize_affiliation (lit "Psychology department, Damietta, alazhar") =
      lit "Department of Psychology, Faculty of Medicine, Al-azhar University, Damietta, Egypt." := by
    decide
  refine ⟨?_, ?_, ?_, ?_, ?_⟩ <;> (rw [h]; decide)

/-- C5: on input "Dept of Comp Sci, Faculty of Engineering, Cairo Univ,
Egypt" the university resolves to "Cairo University", the faculty appears
as given, the department is "Comp Sci", and "Egypt" is present verbatim. -/
theorem C5_dept_comp_sci_example :
    normalize_affiliation (lit "Dept of Comp Sci, Faculty of Engineering, Cairo Univ, Egypt") =
      lit "Department of Comp Sci, Faculty of Engineering, Cairo University, Cairo, Egypt." ∧
    strContains (normalize_affiliation
      (lit "Dept of Comp Sci, Faculty of Engineering, Cairo Univ, Egypt"))
      (lit "Cairo University") = true ∧
    strContains (normalize_affiliation
      (lit "Dept of Comp Sci, Faculty of Engineering, Cairo Univ, Egypt"))
      (lit "Faculty of Engineering") = true ∧
    strContains (normalize_affiliation
      (lit "Dept of Comp Sci, Faculty of Engineering, Cairo Univ, Egypt"))
      (lit "Department of Comp Sci") = true ∧
    strContains (normalize_affiliation
      (lit "Dept of Comp Sci, Faculty of Engineering, Cairo Univ, Egypt"))
      (lit "Egypt") = true := by
  have h : normalize_affiliation (lit "Dept of Comp Sci, Faculty of Engineering, Cairo Univ, Egypt") =
      lit "Department of Comp Sci, Faculty of Engineering, Cairo University, Cairo, Egypt." := by
    decide
  refine ⟨h, ?_, ?_, ?_, ?_⟩ <;> (rw [h]; decide)

/-- C2 counterexample: on input "Cairo Univ" the single clause is
attributed to the university (it is the whole content of the used set),
yet the token-window scan of `extract_city` still returns "Cairo", a token
taken from that consumed clause, and the city appears in the output. -/
theorem C2_counterexample :
    univOf (lit "Cairo Univ") = lit "Cairo University" ∧
    usedPartsOf (lit "Cairo Univ") = [lit "Cairo Univ"] ∧
    extract_city [lit "Cairo Univ"] [lit "Cairo Univ"] = lit "Cairo" ∧
    lit "Cairo" ∈ pySplit (lit "Cairo Univ") ∧
    normalize_affiliation (lit "Cairo Univ") = lit "Cairo University, Cairo, Egypt." := by
  refine ⟨by decide, by decide, by decide, by decide, by decide⟩

/-- C6 counterexample: with the misspelled token "domitta" present in a
clause, the city field need not read "Damietta": an earlier city-table
match wins the scan. -/
theorem C6_counterexample :
    partsOf (lit "Cairo, domitta") = [lit "Cairo", lit "domitta"] ∧
    cityOf (lit "Cairo, domitta") = lit "Cairo" ∧
    lit "Cairo" ≠ lit "Damietta" ∧
    normalize_affiliation (lit "Cairo, domitta") = lit "Cairo, Egypt." := by
  refine ⟨by decide, by decide, by decide, by decide⟩

/-- C7 counterexample: the non-empty value returned by `extract_city` need
not be the first unclaimed clause title-cased (nor its spelling
correction): a city-table token found inside the clause takes priority. -/
theorem C7_counterexample :
    extract_city [lit "abc cairo"] [] = lit "Cairo" ∧
    pyTitle (lit "abc cairo") = lit "Abc Cairo" ∧
    lit "Cairo" ≠ pyTitle (lit "abc cairo") ∧
    dictGet CITY_CORRECTIONS (pyLower (lit "abc cairo")) = none := by
  refine ⟨by decide, by decide, by decide, by decide⟩

/-- C9 counterexample: a whitespace-separated token of the output can
carry an internal capital: a period inside a clause splits it into several
smart-title segments, each re-capitalized, and the rejoin glues them back
without spaces. -/
theorem C9_counterexample :
    normalize_affiliation (lit "Xyz.abc") = lit "Department of Xyz.Abc." ∧
    lit "Xyz.Abc." ∈ pySplit (normalize_affiliation (lit "Xyz.abc")) ∧
    ((lit "Xyz.Abc.").drop 1).any isUpperA = true := by
  have h : normalize_affiliation (lit "Xyz.abc") = lit "Department of Xyz.Abc." := by decide
  refine ⟨h, ?_, by decide⟩
  rw [h]
  decide

/-! ## Lemmas for the amended duplicate-guard claim -/

theorem cityKeys_cases (city : Str) (h : city ∈ CITY_KEYS) :
    city = lit "damietta" ∨ city = lit "damitta" ∨ city = lit "domitta" ∨
    city = lit "dameitta" ∨ city = lit "new damietta" ∨ city = lit "new dameitta" ∨
    city = lit "cairo" ∨ city = lit "tanta" ∨ city = lit "alexandria" ∨
    city = lit "giza" ∨ city = lit "kafr el sheikh" ∨ city = lit "mansoura" := by
  simpa [CITY_KEYS, CITY_TO_COUNTRY] using h

theorem sortByWCDesc_cityKeys :
    sortByWCDesc CITY_KEYS =
      [lit "kafr el sheikh", lit "new damietta", lit "new dameitta",
       lit "damietta", lit "damitta", lit "domitta", lit "dameitta",
       lit "cairo", lit "tanta", lit "alexandria", lit "giza", lit "mansoura"] := by
  decide

/-- C2 amended: a clause whose text is in the used set is never selected
as the city when the clause is a single token: the whole-clause check, the
token check (the token text equals the clause text, which is in the used
set) and the fallback all skip it, so `extract_city` finds nothing in it.
(The counterexample shows the guard does not extend to tokens strictly
inside a consumed multi-token clause.) -/
theorem C2_amended_single_token_guard (p : Str) (used : List Str)
    (hu : used.contains p = true)
    (hw : pySplit p = [p])
    (h1 : startsW (pyLower p) (lit "new damietta") = false)
    (h2 : startsW (pyLower p) (lit "new dameitta") = false)
    (h3 : startsW (pyLower p) (lit "kafr el sheikh") = false) :
    extract_city [p] used = [] := by
  have hpfx : firstSome CITY_KEYS (fun city =>
      if strContains city (lit " ") ∧ startsW (pyLower p) city
      then some (cityCorrectOr city (pyTitle city)) else none) = none := by
    refine firstSome_eq_none _ _ ?_
    intro city hcity
    rw [if_neg]
    intro hcond
    obtain ⟨hsp, hst⟩ := hcond
    rcases cityKeys_cases city hcity with
      rfl | rfl | rfl | rfl | rfl | rfl | rfl | rfl | rfl | rfl | rfl | rfl
    · exact absurd hsp (by decide)
    · exact absurd hsp (by decide)
    · exact absurd hsp (by decide)
    · exact absurd hsp (by decide)
    · rw [h1] at hst; exact Bool.false_ne_true hst
    · rw [h2] at hst; exact Bool.false_ne_true hst
    · exact absurd hsp (by decide)
    · exact absurd hsp (by decide)
    · exact absurd hsp (by decide)
    · exact absurd hsp (by decide)
    · rw [h3] at hst; exact Bool.false_ne_true hst
    · exact absurd hsp (by decide)
  have hwindow : cityWindow used [p] = none := by
    simp only [cityWindow]
    have hmw : firstSome (sortByWCDesc CITY_KEYS) (fun city =>
        if strContains city (lit " ") then
          if (pySplit city).length ≤ ([p] : List Str).length ∧
             (([p] : List Str).take (pySplit city).length).map pyLower = pySplit city
          then some (cityCorrectOr city (pyTitle city)) else none
        else none) = none := by
      refine firstSome_eq_none _ _ ?_
      intro city hcity
      rw [sortByWCDesc_cityKeys] at hcity
      simp only [List.mem_cons, List.not_mem_nil, or_false] at hcity
      rcases hcity with rfl | rfl | rfl | rfl | rfl | rfl | rfl | rfl | rfl | rfl | rfl | rfl
      · rw [if_pos (by decide)]
        rw [if_neg]
        intro hcond
        have hlen := hcond.1
        rw [List.length_singleton] at hlen
        exact absurd hlen (by decide)
      · rw [if_pos (by decide)]
        rw [if_neg]
        intro hcond
        have hlen := hcond.1
        rw [List.length_singleton] at hlen
        exact absurd hlen (by decide)
      · rw [if_pos (by decide)]
        rw [if_neg]
        intro hcond
        have hlen := hcond.1
        rw [List.length_singleton] at hlen
        exact absurd hlen (by decide)
      all_goals rw [if_neg (by decide)]
    rw [hmw]
    rw [hu]
    simp only [Bool.not_true, Bool.and_false, Bool.false_eq_true, if_false]
  have hcp : cityPart used p = none := by
    simp only [cityPart]
    rw [if_neg (fun hcond => hcond.2 hu)]
    rw [hpfx, hw, hwindow]
  have hfb : cityFallbackPart used p = none := by
    simp only [cityFallbackPart]
    rw [if_neg (fun hcond => hcond.1 hu)]
  rw [extract_city, firstSome_singleton, hcp, firstSome_singleton, hfb]

theorem C2_amended_witness : extract_city [lit "Cairo"] [lit "Cairo"] = [] :=
  C2_amended_single_token_guard (lit "Cairo") [lit "Cairo"]
    (by decide) (by decide) (by decide) (by decide) (by decide)

/-! ## Lemmas: city corrections and the fallback normalizations -/

theorem corrections_value (k v : Str) (h : dictGet CITY_CORRECTIONS k = some v) :
    v = lit "Damietta" := by
  obtain ⟨kv, hm, h1, h2⟩ := dictGet_eq_some h
  subst h2
  simp only [CITY_CORRECTIONS, List.mem_cons, List.not_mem_nil, or_false] at hm
  rcases hm with rfl | rfl | rfl | rfl | rfl <;> rfl

theorem key_ne_domitta_of_correction_none (k : Str)
    (hc : dictGet CITY_CORRECTIONS k = none) : k ≠ lit "domitta" := by
  intro h
  subst h
  exact absurd hc (by decide)

theorem city_key_ne_nil (k : Str) (hk : dictHas CITY_TO_COUNTRY k = true) : k ≠ [] := by
  obtain ⟨kv, hm, h1⟩ := dictHas_eq_some _ _ hk
  subst h1
  simp only [CITY_TO_COUNTRY, List.mem_cons, List.not_mem_nil, or_false] at hm
  rcases hm with rfl | rfl | rfl | rfl | rfl | rfl | rfl | rfl | rfl | rfl | rfl | rfl <;> decide

theorem cityCorrectOr_cases (k alt : Str) :
    cityCorrectOr k alt = lit "Damietta" ∨
    (cityCorrectOr k alt = alt ∧ dictGet CITY_CORRECTIONS k = none) := by
  rw [cityCorrectOr]
  cases h : dictGet CITY_CORRECTIONS k with
  | some v => exact Or.inl (corrections_value k v h)
  | none => exact Or.inr ⟨rfl, rfl⟩

theorem dropCI_isSome_eq_startsW (s w : Str) :
    (dropCI s w).isSome = startsW (pyLower s) w := by
  induction s generalizing w with
  | nil =>
    cases w with
    | nil => rfl
    | cons d e => rfl
  | cons c t ih =>
    cases w with
    | nil => rfl
    | cons d e =>
      show (if lowerC c = d then dropCI t e else none).isSome =
        (decide (lowerC c = d) && startsW (pyLower t) e)
      by_cases hc : lowerC c = d
      · rw [if_pos hc]
        simp [hc, ih]
      · rw [if_neg hc]
        simp [hc]

theorem pyLower_dropWhileWs (s : Str) :
    pyLower (s.dropWhile isWs) = (pyLower s).dropWhile isWs := by
  induction s with
  | nil => rfl
  | cons c t ih =>
    show pyLower ((c :: t).dropWhile isWs) = (lowerC c :: pyLower t).dropWhile isWs
    by_cases hc : isWs c = true
    · rw [List.dropWhile_cons_of_pos hc, List.dropWhile_cons_of_pos (by rw [isWs_lowerC]; exact hc)]
      exact ih
    · rw [List.dropWhile_cons_of_neg (by simpa using hc),
          List.dropWhile_cons_of_neg (by rw [isWs_lowerC]; simpa using hc)]
      rfl

theorem pyLower_stripNewCI (s : Str) :
    pyLower (stripNewCI s) = stripNewLower (pyLower s) := by
  have hcond : (dropCI s (lit "new")).isSome = startsW (pyLower s) (lit "new") :=
    dropCI_isSome_eq_startsW s (lit "new")
  by_cases h : startsW (pyLower s) (lit "new") = true
  · rw [stripNewCI, if_pos (by rw [hcond]; exact h), stripNewLower, if_pos h]
    have hd3 : (pyLower s).drop 3 = pyLower (s.drop 3) := by
      rw [pyLower, pyLower, List.map_drop]
    rw [hd3]
    cases hd : s.drop 3 with
    | nil => rfl
    | cons c t =>
      show pyLower (if isWs c then (c :: t).dropWhile isWs else s) =
        (if isWs (lowerC c) then (lowerC c :: pyLower t).dropWhile isWs else pyLower s)
      rw [isWs_lowerC]
      by_cases hc : isWs c = true
      · rw [if_pos hc, if_pos hc]
        exact pyLower_dropWhileWs (c :: t)
      · rw [if_neg hc, if_neg hc]
  · rw [stripNewCI, if_neg (by rw [hcond]; exact h), stripNewLower, if_neg h]

/-! ## Lemmas: characterizing the values returned by `extract_city` -/

theorem cityWindow_out (used ws : List Str) (c : Str)
    (h : cityWindow used ws = some c) :
    pyLower c ≠ lit "domitta" ∧ ((∀ w ∈ ws, w ≠ []) → c ≠ []) := by
  induction ws with
  | nil => simp [cityWindow] at h
  | cons w t ih =>
    simp only [cityWindow] at h
    split at h
    · rename_i r heq
      injection h with h'
      subst h'
      obtain ⟨city, hcity, hf⟩ := firstSome_eq_some _ _ _ heq
      rw [sortByWCDesc_cityKeys] at hcity
      simp only [List.mem_cons, List.not_mem_nil, or_false] at hcity
      split at hf
      · split at hf
        · injection hf with h2
          subst h2
          rcases hcity with rfl | rfl | rfl | rfl | rfl | rfl | rfl | rfl | rfl | rfl | rfl | rfl <;>
            exact ⟨by decide, fun _ => by decide⟩
        · exact absurd hf (by simp)
      · exact absurd hf (by simp)
    · split at h
      · rename_i hcond
        injection h with h'
        have hd : dictHas CITY_TO_COUNTRY (pyLower w) = true := by
          rw [Bool.and_eq_true] at hcond
          exact hcond.1
        rcases cityCorrectOr_cases (pyLower w) (pyTitle w) with hcc | ⟨hcc, hnone⟩
        · rw [hcc] at h'
          subst h'
          exact ⟨by decide, fun _ => by decide⟩
        · rw [hcc] at h'
          subst h'
          refine ⟨?_, fun hall => pyTitle_ne_nil w (hall w (List.mem_cons_self _ _))⟩
          rw [pyLower_pyTitle]
          exact key_ne_domitta_of_correction_none _ hnone
      · obtain ⟨h1, h2⟩ := ih h
        exact ⟨h1, fun hall => h2 (fun x hx => hall x (List.mem_cons_of_mem _ hx))⟩

theorem cityPart_out (used : List Str) (p c : Str) (h : cityPart used p = some c) :
    pyLower c ≠ lit "domitta" ∧ (p ≠ [] → c ≠ []) := by
  simp only [cityPart] at h
  split at h
  · rename_i hcond
    injection h with h'
    rcases cityCorrectOr_cases (pyLower p) (pyTitle p) with hcc | ⟨hcc, hnone⟩
    · rw [hcc] at h'
      subst h'
      exact ⟨by decide, fun _ => by decide⟩
    · rw [hcc] at h'
      subst h'
      refine ⟨?_, fun hp => pyTitle_ne_nil p hp⟩
      rw [pyLower_pyTitle]
      exact key_ne_domitta_of_correction_none _ hnone
  · split at h
    · rename_i r heq
      injection h with h'
      subst h'
      obtain ⟨city, hcity, hf⟩ := firstSome_eq_some _ _ _ heq
      split at hf
      · injection hf with h2
        subst h2
        rcases cityKeys_cases city hcity with
          rfl | rfl | rfl | rfl | rfl | rfl | rfl | rfl | rfl | rfl | rfl | rfl <;>
          exact ⟨by decide, fun _ => by decide⟩
      · exact absurd hf (by simp)
    · rename_i heq
      obtain ⟨h1, h2⟩ := cityWindow_out used (pySplit p) c h
      exact ⟨h1, fun _ => h2 (fun x hx => (pySplit_mem p x hx).1)⟩

theorem cityFallbackPart_out (used : List Str) (p c : Str)
    (h : cityFallbackPart used p = some c) :
    pyLower c ≠ lit "domitta" ∧ (p ≠ [] → c ≠ []) := by
  simp only [cityFallbackPart] at h
  split at h
  · injection h with h'
    split at h'
    · rename_i v hv
      subst h'
      have hd := corrections_value _ _ hv
      subst hd
      exact ⟨by decide, fun _ => by decide⟩
    · rename_i hplnone
      split at h'
      · rename_i v hv
        subst h'
        have hd := corrections_value _ _ hv
        subst hd
        exact ⟨by decide, fun _ => by decide⟩
      · rename_i hplsnone
        split at h'
        · rename_i hd
          subst h'
          have hlow : pyLower (stripNewCI (pyTitle p)) = stripNewLower (pyLower p) := by
            rw [pyLower_stripNewCI, pyLower_pyTitle]
          constructor
          · rw [hlow]
            exact key_ne_domitta_of_correction_none _ hplsnone
          · intro hp
            apply ne_nil_of_pyLower_ne_nil
            rw [hlow]
            exact city_key_ne_nil _ hd
        · subst h'
          refine ⟨?_, fun hp => pyTitle_ne_nil p hp⟩
          rw [pyLower_pyTitle]
          exact key_ne_domitta_of_correction_none _ hplnone
  · exact absurd h (by simp)

theorem cityFromUniv_never_domitta (u : Str) :
    pyLower (cityFromUniv u) ≠ lit "domitta" := by
  rw [cityFromUniv]
  split
  · rename_i r heq
    obtain ⟨city, hcity, hf⟩ := firstSome_eq_some _ _ _ heq
    split at hf
    · injection hf with h2
      subst h2
      rcases cityKeys_cases city hcity with
        rfl | rfl | rfl | rfl | rfl | rfl | rfl | rfl | rfl | rfl | rfl | rfl <;> decide
    · exact absurd hf (by simp)
  · decide

/-- C6 amended: the city value is never the raw misspelling "domitta" in
any casing — every path that could select a "domitta" clause or token goes
through the correction table and yields "Damietta" — although the city
field need not be "Damietta" when another city-table entry matches
earlier, and longer clause text containing the misspelling can survive via
the fallback. -/
theorem C6_amended_city_never_misspelled :
    (∀ parts used : List Str, pyLower (extract_city parts used) ≠ lit "domitta") ∧
    (∀ raw : Str, pyLower (cityOf raw) ≠ lit "domitta") := by
  have hec : ∀ parts used : List Str, pyLower (extract_city parts used) ≠ lit "domitta" := by
    intro parts used
    rw [extract_city]
    split
    · rename_i r heq
      obtain ⟨p, hp, hf⟩ := firstSome_eq_some _ _ _ heq
      exact (cityPart_out used p r hf).1
    · split
      · rename_i r heq
        obtain ⟨p, hp, hf⟩ := firstSome_eq_some _ _ _ heq
        exact (cityFallbackPart_out used p r hf).1
      · decide
  refine ⟨hec, ?_⟩
  intro raw
  simp only [cityOf]
  split
  · exact cityFromUniv_never_domitta (univOf raw)
  · rw [cityScanOf]
    exact hec (partsOf raw) (usedPartsOf raw)

theorem C6_amended_witness :
    pyLower (extract_city [lit "domitta"] []) ≠ lit "domitta" ∧
    pyLower (cityOf (lit "domitta")) ≠ lit "domitta" :=
  ⟨C6_amended_city_never_misspelled.1 [lit "domitta"] [],
   C6_amended_city_never_misspelled.2 (lit "domitta")⟩

/-- C7 amended: for clause lists of non-empty strings, if some clause is
neither in the used set nor a country name, `extract_city` returns a
non-empty string — a city-table match found anywhere in the clauses, or
else the first unclaimed non-country clause (title-cased or
spelling-corrected); it returns the empty string only when every clause is
used or a country name. -/
theorem C7_amended_nonempty_when_unclaimed :
    ∀ parts used : List Str,
      (∀ p ∈ parts, p ≠ []) →
      (∃ p ∈ parts, used.contains p = false ∧ dictHas COUNTRIES (pyLower p) = false) →
      extract_city parts used ≠ [] := by
  intro parts used hall hex
  rw [extract_city]
  split
  · rename_i r heq
    obtain ⟨p, hp, hf⟩ := firstSome_eq_some _ _ _ heq
    exact (cityPart_out used p r hf).2 (hall p hp)
  · split
    · rename_i r heq
      obtain ⟨p, hp, hf⟩ := firstSome_eq_some _ _ _ heq
      exact (cityFallbackPart_out used p r hf).2 (hall p hp)
    · rename_i heq1 heq2
      exfalso
      obtain ⟨p, hp, hc1, hc2⟩ := hex
      have hcond : ¬ (used.contains p = true) ∧ ¬ (dictHas COUNTRIES (pyLower p) = true) :=
        ⟨fun hm => by rw [hc1] at hm; exact Bool.false_ne_true hm,
         fun hm => by rw [hc2] at hm; exact Bool.false_ne_true hm⟩
      have hsome : (cityFallbackPart used p).isSome := by
        simp only [cityFallbackPart]
        rw [if_pos hcond]
        rfl
      have hfs := firstSome_isSome parts (cityFallbackPart used) p hp hsome
      rw [heq2] at hfs
      simp at hfs

theorem C7_amended_witness : extract_city [lit "xyz"] [] ≠ [] :=
  C7_amended_nonempty_when_unclaimed [lit "xyz"] [] (by decide)
    ⟨lit "xyz", by decide, by decide, by decide⟩

/-! ## Lemmas: shape of the words produced by `smart_title_final` -/

theorem mem_pyLower_not_upper (s : Str) (c : Nat) (h : c ∈ pyLower s) :
    isUpperA c = false := by
  obtain ⟨a, -, rfl⟩ := List.mem_map.mp h
  exact isUpperA_lowerC a

theorem mem_pyLower_ws (s : Str) (hs : ∀ c ∈ s, isWs c = false) :
    ∀ c ∈ pyLower s, isWs c = false := by
  intro c hc
  obtain ⟨a, ha, rfl⟩ := List.mem_map.mp hc
  rw [isWs_lowerC]
  exact hs a ha

theorem smartWord_ne_nil (b : Bool) (w : Str) (hw : w ≠ []) : smartWord b w ≠ [] := by
  rw [smartWord]
  split
  · cases w with
    | nil => exact absurd rfl hw
    | cons c t => simp [pyCapitalize, pyLower]
  · exact pyLower_ne_nil w hw

theorem smartWord_nows (b : Bool) (w : Str) (hw : ∀ c ∈ w, isWs c = false) :
    ∀ c ∈ smartWord b w, isWs c = false := by
  rw [smartWord]
  split
  · cases w with
    | nil => intro c hc; simp [pyCapitalize, pyLower] at hc
    | cons c0 t =>
      intro c hc
      simp only [pyLower, List.map, pyCapitalize] at hc
      rcases List.mem_cons.mp hc with rfl | hc
      · rw [isWs_upperC, isWs_lowerC]
        exact hw c0 (List.mem_cons_self _ _)
      · exact mem_pyLower_ws _ (mem_pyLower_ws _ (fun x hx => hw x (List.mem_cons_of_mem _ hx))) c hc
  · exact mem_pyLower_ws w hw

theorem smartWord_tail_not_upper (b : Bool) (w : Str) :
    ∀ c ∈ (smartWord b w).drop 1, isUpperA c = false := by
  rw [smartWord]
  split
  · cases w with
    | nil => intro c hc; simp [pyCapitalize, pyLower] at hc
    | cons c0 t =>
      intro c hc
      simp only [pyLower, List.map, pyCapitalize, List.drop_succ_cons, List.drop_zero] at hc
      exact mem_pyLower_not_upper _ c hc
  · intro c hc
    have : (pyLower w).drop 1 = pyLower (w.drop 1) := by
      rw [pyLower, pyLower, List.map_drop]
    rw [this] at hc
    exact mem_pyLower_not_upper _ c hc

theorem smartWords_mem (parts0 : List Str) (b : Bool) (x : Str)
    (h : x ∈ smartWords b parts0) : ∃ b' w, w ∈ parts0 ∧ x = smartWord b' w := by
  induction parts0 generalizing b with
  | nil => simp [smartWords] at h
  | cons w t ih =>
    simp only [smartWords] at h
    rcases List.mem_cons.mp h with rfl | h
    · exact ⟨b, w, List.mem_cons_self _ _, rfl⟩
    · obtain ⟨b', w', hw', hx⟩ := ih false h
      exact ⟨b', w', List.mem_cons_of_mem _ hw', hx⟩

theorem transformPart_words (part w : Str) (hw : w ∈ pySplit (transformPart part)) :
    ∀ c ∈ w.drop 1, isUpperA c = false := by
  rw [transformPart] at hw
  split at hw
  · rename_i hsp
    rcases hsp with rfl | rfl | rfl
    · rw [show pySplit (lit ",") = [lit ","] from by decide] at hw
      simp only [List.mem_singleton] at hw
      subst hw
      decide
    · rw [show pySplit (lit ".") = [lit "."] from by decide] at hw
      simp only [List.mem_singleton] at hw
      subst hw
      decide
    · simp [pySplit, pySplitAux] at hw
  · have hts : ∀ x ∈ smartWords true (pySplit (strip part)),
        x ≠ [] ∧ ∀ c ∈ x, isWs c = false := by
      intro x hx
      obtain ⟨b', w', hw', rfl⟩ := smartWords_mem _ _ _ hx
      obtain ⟨hne, hws⟩ := pySplit_mem (strip part) w' hw'
      exact ⟨smartWord_ne_nil b' w' hne, smartWord_nows b' w' hws⟩
    rw [pySplit_joinSp _ hts] at hw
    obtain ⟨b', w', hw', rfl⟩ := smartWords_mem _ _ _ hw
    exact smartWord_tail_not_upper b' w'

/-- C9 amended: within each comma/period-delimited segment produced by the
smart-title pass, every whitespace-separated word has all letters after
its first character in lowercase — internal capitals of extracted names
are not preserved (the university "Al-Azhar University" appears as
"Al-azhar University") — but a token of the final joined output can still
carry an internal capital when a period inside a clause makes the rejoin
glue two segments together without a space. -/
theorem C9_amended_segment_words_lowercase_tail :
    (∀ text : Str, ∀ part ∈ smartPartsOfText text, ∀ w ∈ pySplit part,
      ∀ c ∈ w.drop 1, isUpperA c = false) ∧
    strContains (normalize_affiliation (lit "Faculty of Medicine, Al-Azhar university, Cairo"))
      (lit "Al-azhar University") = true := by
  constructor
  · intro text part hpart w hw
    rw [smartPartsOfText] at hpart
    obtain ⟨q, -, rfl⟩ := List.mem_map.mp hpart
    exact transformPart_words q w hw
  · have h : normalize_affiliation (lit "Faculty of Medicine, Al-Azhar university, Cairo") =
        lit "Faculty of Medicine, Al-azhar University, Cairo, Egypt." := by decide
    rw [h]
    decide

theorem C9_amended_witness : isUpperA 98 = false :=
  C9_amended_segment_words_lowercase_tail.1 (lit "Ab.") (lit "Ab") (by decide)
    (lit "Ab") (by decide) 98 (by decide)

/-! ## Lemmas: the second-chance university scan -/

theorem takeUntilUniv_subset (l : List Str) : ∀ x ∈ takeUntilUniv l, x ∈ l := by
  induction l with
  | nil => simp [takeUntilUniv]
  | cons t rest ih =>
    intro x hx
    simp only [takeUntilUniv] at hx
    split at hx
    · simp only [List.mem_singleton] at hx
      subst hx
      exact List.mem_cons_self _ _
    · rcases List.mem_cons.mp hx with rfl | hx
      · exact List.mem_cons_self _ _
      · exact List.mem_cons_of_mem _ (ih x hx)

theorem takeUntilUniv_head (t : Str) (rest : List Str) :
    ∃ rest2, takeUntilUniv (t :: rest) = t :: rest2 := by
  simp only [takeUntilUniv]
  split
  · exact ⟨[], rfl⟩
  · exact ⟨takeUntilUniv rest, rfl⟩

theorem takeUntilUniv_pre (l : List Str) : ∃ rest, l = takeUntilUniv l ++ rest := by
  induction l with
  | nil => exact ⟨[], rfl⟩
  | cons t r ih =>
    simp only [takeUntilUniv]
    split
    · exact ⟨r, rfl⟩
    · obtain ⟨rest, hrest⟩ := ih
      refine ⟨rest, ?_⟩
      rw [List.cons_append, ← hrest]

theorem extract_university_single_nil (q w : Str) (ws : List Str)
    (hsp : pySplit q = w :: ws)
    (hcity : dictHas CITY_TO_COUNTRY (pyLower w) = true)
    (halias : ∀ kv ∈ UNIV_ALIASES, strContains (pyLower q) kv.1 = false)
    (hcenter : strContains (pyLower q) (lit "center") = false)
    (hcentre : strContains (pyLower q) (lit "centre") = false) :
    extract_university [q] = [] := by
  have hup : univPart q = none := by
    simp only [univPart]
    have hdg : dictGet UNIV_ALIASES (pyLower q) = none := by
      apply dictGet_eq_none
      intro kv hm heq
      have hfalse := halias kv hm
      rw [heq, strContains_refl] at hfalse
      exact absurd hfalse (by simp)
    rw [hdg]
    have hfs : firstSome UNIV_ALIASES
        (fun kv => if strContains (pyLower q) kv.1 = true then some kv.2 else none) = none := by
      refine firstSome_eq_none _ _ ?_
      intro kv hm
      rw [if_neg]
      intro hcond
      rw [halias kv hm] at hcond
      exact Bool.false_ne_true hcond
    rw [hfs]
    rw [hcenter, hcentre]
    simp only [Bool.or_self, Bool.false_eq_true, if_false]
    by_cases hu : strContains (pyLower q) (lit "univ") = true
    · rw [if_pos hu, hsp]
      have hloop : univWordLoop (w :: ws) = [] := by
        simp only [univWordLoop]
        rw [if_pos hcity]
      rw [hloop]
      simp
    · rw [if_neg hu]
  rw [extract_university, firstSome_singleton, hup]

/-- C10: when a clause's first token is a city-table key, a later token
contains "univ", and the clause matches no university alias and has no
"center"/"centre", `extract_university` returns the empty string (the word
span breaks on the leading city token), the token-level second chance also
yields nothing, and — as in the example — `normalize_affiliation
"Tanta Univ"` is "Tanta, Egypt." with no university field. -/
theorem C10_leading_city_token_blocks_university :
    (∀ (raw p w : Str) (ws : List Str),
      partsOf raw = [p] →
      pySplit p = w :: ws →
      joinSp (pySplit p) = p →
      dictHas CITY_TO_COUNTRY (pyLower w) = true →
      ws.any (fun t => strContains (pyLower t) (lit "univ")) = true →
      (∀ kv ∈ UNIV_ALIASES, strContains (pyLower p) kv.1 = false) →
      strContains (pyLower p) (lit "center") = false →
      strContains (pyLower p) (lit "centre") = false →
      extract_university [p] = [] ∧ univOf raw = []) ∧
    normalize_affiliation (lit "Tanta Univ") = lit "Tanta, Egypt." := by
  constructor
  · intro raw p w ws hparts hsp hjoin hcity hany halias hcenter hcentre
    have hEU : extract_university [p] = [] :=
      extract_university_single_nil p w ws hsp hcity halias hcenter hcentre
    refine ⟨hEU, ?_⟩
    obtain ⟨rest2, hA0⟩ := takeUntilUniv_head w ws
    have hA : takeUntilUniv (pySplit p) = w :: rest2 := by rw [hsp, hA0]
    have hAmem : ∀ x ∈ takeUntilUniv (pySplit p), x ≠ [] ∧ ∀ c ∈ x, isWs c = false :=
      fun x hx => pySplit_mem p x (takeUntilUniv_subset _ x hx)
    have htempsplit : pySplit (joinSp (takeUntilUniv (pySplit p))) = w :: rest2 := by
      rw [pySplit_joinSp _ hAmem, hA]
    have hsubtemp : ∀ needle, strContains (pyLower (joinSp (takeUntilUniv (pySplit p)))) needle = true →
        strContains (pyLower p) needle = true := by
      obtain ⟨rest, hrest⟩ := takeUntilUniv_pre (pySplit p)
      cases rest with
      | nil =>
        rw [List.append_nil] at hrest
        rw [← hrest, hjoin]
        exact fun needle h => h
      | cons r0 rrest =>
        have hAne : takeUntilUniv (pySplit p) ≠ [] := by rw [hA]; simp
        have hj : joinSp (takeUntilUniv (pySplit p) ++ (r0 :: rrest)) =
            joinSp (takeUntilUniv (pySplit p)) ++ 32 :: joinSp (r0 :: rrest) :=
          joinSp_append _ _ hAne (by simp)
        have hp2 : p = joinSp (takeUntilUniv (pySplit p)) ++ 32 :: joinSp (r0 :: rrest) := by
          rw [← hj, ← hrest, hjoin]
        intro needle hn
        rw [hp2, pyLower, List.map_append]
        exact strContains_append_left _ _ _ hn
    have hcontra : ∀ needle, strContains (pyLower p) needle = false →
        strContains (pyLower (joinSp (takeUntilUniv (pySplit p)))) needle = false := by
      intro needle hfalse
      cases hb : strContains (pyLower (joinSp (takeUntilUniv (pySplit p)))) needle with
      | false => rfl
      | true =>
        have := hsubtemp needle hb
        rw [hfalse] at this
        exact absurd this (by simp)
    have hEUtemp : extract_university [joinSp (takeUntilUniv (pySplit p))] = [] := by
      refine extract_university_single_nil _ w rest2 htempsplit hcity ?_ ?_ ?_
      · exact fun kv hm => hcontra kv.1 (halias kv hm)
      · exact hcontra _ hcenter
      · exact hcontra _ hcentre
    have hsc : univSecondChancePart p = none := by
      simp only [univSecondChancePart]
      obtain ⟨t, htm, htu⟩ := List.any_eq_true.mp hany
      have hany2 : (pySplit p).any
          (fun t => strContains (pyLower t) (lit "univ") || dictHas UNIV_ALIASES (pyLower t)) = true := by
        refine List.any_eq_true.mpr ⟨t, ?_, ?_⟩
        · rw [hsp]
          exact List.mem_cons_of_mem _ htm
        · rw [htu]
          simp
      rw [if_pos hany2, hEUtemp]
      simp
    simp only [univOf, hparts, hEU]
    rw [univSecondChance, firstSome_singleton, hsc]
    simp
  · decide

theorem C10_witness :
    extract_university [lit "Tanta Univ"] = [] ∧ univOf (lit "Tanta Univ") = [] :=
  C10_leading_city_token_blocks_university.1 (lit "Tanta Univ") (lit "Tanta Univ")
    (lit "Tanta") [lit "Univ"] (by decide) (by decide) (by decide) (by decide)
    (by decide) (by decide) (by decide) (by decide)
